import Mathlib

/-!
Verification of the `aqa-publisher` rate-derivation pipeline.

This file gives a shallow embedding, in Lean 4, of the pure computational core
of the `aqa-publisher` Rust crate:

* the median aggregator `compute_validated_median` (`src/lib.rs`),
* the basis adjustment `adjust_basis` and the AQA scalar (`src/utils.rs`,
  `src/lib.rs`),
* the segment construction of `compute_compounded_average`
  (`src/sources/mod.rs`, shared with `OFR::compute_compounded` in
  `src/sources/ofr.rs`),
* the CSV latest-row selection `parse_csv_for_latest` with the FRED and NY Fed
  published-average row deserializers (`src/sources/csv.rs`, `fred.rs`,
  `nyfed.rs`, `de.rs`),
* the percent-string parser `percent_to_floored_u64` (`src/sources/mod.rs`),
* the MessagePack action byte string of `action_hash` (`src/chain/signing.rs`),
* the hex encoding of signature scalars in `submit_vote` (`src/chain/api.rs`),
* the submission formatter `fmt_scaled_rate` (`src/utils.rs`), together with an
  exact rational model of the IEEE-754 binary64 arithmetic it uses.

Conventions used throughout the embedding:

* Rust `u64` values are represented as `Nat`; where the Rust code performs
  `u64` arithmetic that could wrap, the embedding reduces modulo `2 ^ 64`
  (release-mode wrapping semantics).
* `chrono::NaiveDate` values are represented as `Int` day numbers; the
  difference of two day numbers is the number of days between the dates,
  which is exactly what `signed_duration_since(..).num_days()` returns for
  dates.
* Fallible Rust functions returning `anyhow::Result` are modelled with
  `Except`/`Option`; the distinct `bail!` sites of the median aggregator are
  distinguished by the `MedianError` enum (the Rust code distinguishes them
  only by message text).
-/

namespace AqaPublisher

/-- Modulus of 64-bit unsigned arithmetic, `2 ^ 64`. -/
def U64 : Nat := 18446744073709551616

/-- Reinterpretation of a `u64` bit pattern as an `i64` (`val as i64` in
`src/lib.rs`): values at and above `2 ^ 63` wrap to negative numbers. -/
def i64_of_u64 (v : Nat) : Int :=
  if v < 9223372036854775808 then (v : Int) else (v : Int) - 18446744073709551616

/-- A source observation as collected in `get_median_sofr_avg`
(`src/lib.rs`): the tuple `(source_name, date, value)` where `value` is a
scaled rate (`1% = 1_000_000`) and `date` is a day number. -/
structure Obs where
  name : String
  date : Int
  rate : Nat
  deriving DecidableEq, Inhabited, Repr

/-- Error cases of `compute_validated_median` (`src/lib.rs`), one per `bail!`
site, in source order. In the Rust code these are `anyhow` errors that differ
only in their message text. -/
inductive MedianError where
  | insufficientSources
  | sourcesDisagree
  | outOfRange
  | staleData
  deriving DecidableEq, Repr

/-- Maximal allowed difference between the closest pair of sources:
5 basis points in scaled units (`MAX_DIFF_BPS` in `src/lib.rs`). -/
def MAX_DIFF_BPS : Nat := 50000

/-- Agreement check of `compute_validated_median` (`src/lib.rs`, the nested
`i < j` loop): true iff some pair of observations has rates whose absolute
difference (`u64::abs_diff`, here `max - min`) is at most `MAX_DIFF_BPS`. -/
def has_valid_pair : List Obs → Bool
  | [] => false
  | x :: rest =>
      rest.any (fun y => max x.rate y.rate - min x.rate y.rate ≤ MAX_DIFF_BPS) ||
        has_valid_pair rest

/-- Plausibility check of `compute_validated_median` (`src/lib.rs`) for a
single value: at most `MAX_RATE = 15_000_000` and, reinterpreted as `i64`,
at least `MIN_RATE = -5_000_000`. -/
def plausible_rate (v : Nat) : Bool :=
  v ≤ 15000000 && decide (-5000000 ≤ i64_of_u64 v)

/-- Dates of the observations sorted ascending (`dates.sort()` in
`src/lib.rs`; stability is irrelevant for a list of plain dates). -/
def sortedDates (results : List Obs) : List Int :=
  (results.map Obs.date).insertionSort (fun a b => a ≤ b)

/-- Date selected by the staleness check of `compute_validated_median`
(`src/lib.rs`): sort dates ascending, take the older of the two middle dates
for an even count, the single middle date for an odd count. -/
def median_returned_date (results : List Obs) : Int :=
  let dates := sortedDates results
  let i := dates.length / 2
  if dates.length % 2 = 0 then dates.getD (i - 1) 0 else dates.getD i 0

/-- Ordering of observations by scaled rate, the sort key of
`sorted_results.sort_by_key(|(_, _, v)| *v)` in `src/lib.rs`. -/
def rateLE (a b : Obs) : Prop := a.rate ≤ b.rate

instance : DecidableRel rateLE := fun a b => Nat.decLe a.rate b.rate

instance : IsTotal Obs rateLE := ⟨fun a b => Nat.le_total a.rate b.rate⟩

instance : IsTrans Obs rateLE := ⟨fun _ _ _ => Nat.le_trans⟩

/-- Observations sorted by rate ascending. Rust's `sort_by_key` is a stable
sort; insertion sort with a total `≤` relation computes the same (unique)
stable sorted permutation. -/
def sortedByRate (results : List Obs) : List Obs :=
  results.insertionSort rateLE

/-- Median selection of `compute_validated_median` (`src/lib.rs`, the final
block): sort by rate; an even count averages the two middle rates (`u64`
addition, truncating division) and takes the date of the lower middle; an
odd count takes the middle observation's date and rate. -/
def select_median (results : List Obs) : Int × Nat :=
  let sorted := sortedByRate results
  let i := sorted.length / 2
  if sorted.length % 2 = 0 then
    let o1 := sorted.getD (i - 1) default
    let o2 := sorted.getD i default
    (o1.date, (o1.rate + o2.rate) % U64 / 2)
  else
    let o := sorted.getD i default
    (o.date, o.rate)

/-- Embedding of `compute_validated_median` (`src/lib.rs`): the four
validation checks in source order, each short-circuiting, followed by median
selection on the rate-sorted observations. -/
def compute_validated_median (query_date : Int) (results : List Obs) :
    Except MedianError (Int × Nat) :=
  if results.length < 2 then .error .insufficientSources
  else if !has_valid_pair results then .error .sourcesDisagree
  else if !(results.all fun o => plausible_rate o.rate) then .error .outOfRange
  else if 7 < query_date - median_returned_date results then .error .staleData
  else .ok (select_median results)

/-- Embedding of `adjust_basis` (`src/utils.rs`): `rate * 487 / 480` in `u64`
arithmetic, flooring. -/
def adjust_basis (scaled_rate : Nat) : Nat :=
  scaled_rate * 487 % U64 / 480

/-- Numerator of the AQA scalar (`src/lib.rs`). -/
def AQA_SCALAR_NUMERATOR : Nat := 85

/-- Denominator of the AQA scalar (`src/lib.rs`). -/
def AQA_SCALAR_DENOMINATOR : Nat := 100

/-- The pure tail of `get_aqa_ref_rate` (`src/lib.rs`): basis-adjust the
median value, then apply the `85 / 100` scalar, both flooring, in that
order. -/
def aqa_reference_rate (median_value : Nat) : Nat :=
  adjust_basis median_value * AQA_SCALAR_NUMERATOR % U64 / AQA_SCALAR_DENOMINATOR

/-- Order-theoretic median of three values: the middle one, never an
extreme. -/
def mid3 (x y z : Nat) : Nat := max (min x y) (min (max x y) z)

/-- Whitespace recognizer for the `str::trim` calls in the sources: the ASCII
whitespace characters (space and the controls `\t`, `\n`, `\x0b`, `\x0c`,
`\r`), which are the whitespace characters occurring in the ASCII data these
functions receive. -/
def isWsChar (c : Char) : Bool :=
  c.toNat = 32 || (9 ≤ c.toNat && c.toNat ≤ 13)

/-- Model of `str::trim`: drop whitespace from both ends. -/
def trimChars (l : List Char) : List Char :=
  ((l.dropWhile isWsChar).reverse.dropWhile isWsChar).reverse

/-- ASCII decimal digit recognizer. -/
def isDigitChar (c : Char) : Bool :=
  48 ≤ c.toNat && c.toNat ≤ 57

/-- Numeric value of a list of ASCII digits, most significant first. -/
def digitsVal (l : List Char) : Nat :=
  l.foldl (fun a c => a * 10 + (c.toNat - 48)) 0

/-- Model of the unsigned part of `rust_decimal::Decimal::from_str`: after
skipping `_` separators, the string must consist of decimal digits with at
most one `.`; at least one digit is required; the significand must fit the
96-bit `Decimal` mantissa and the scale must be at most `Decimal`'s maximum
of 28. Returns the pair `(mantissa, scale)` with exact rational value
`mantissa / 10 ^ scale`. -/
def parseUnsignedDec (l : List Char) : Option (Nat × Nat) :=
  let l := l.filter (fun c => c ≠ '_')
  let ip := l.takeWhile (fun c => c ≠ '.')
  let rest := l.dropWhile (fun c => c ≠ '.')
  let build (fp : List Char) : Option (Nat × Nat) :=
    if (ip ++ fp).all isDigitChar ∧ ip ++ fp ≠ [] ∧ fp.length ≤ 28 ∧
        digitsVal (ip ++ fp) < 79228162514264337593543950336 then
      some (digitsVal (ip ++ fp), fp.length)
    else none
  match rest with
  | [] => build []
  | _ :: fp => build fp

/-- Model of `rust_decimal::Decimal::from_str` including the sign: an optional
leading `+` or `-`, then the unsigned part. The `Bool` is the sign flag
queried by `is_sign_negative`. -/
def parseDecimalChars (l : List Char) : Option (Bool × Nat × Nat) :=
  match l with
  | c :: r =>
      if c = '+' then (parseUnsignedDec r).map (fun p => (false, p))
      else if c = '-' then (parseUnsignedDec r).map (fun p => (true, p))
      else (parseUnsignedDec l).map (fun p => (false, p))
  | [] => none

/-- Embedding of `percent_to_floored_u64` (`src/sources/mod.rs`): trim, reject
empty and lone `.`, parse as `Decimal`, reject negative values, scale by
`1_000_000`, truncate toward zero, convert to `u64` (failing on overflow). -/
def percent_to_floored_u64 (s : String) : Option Nat :=
  let raw := trimChars s.toList
  if raw = [] ∨ raw = ['.'] then none
  else
    match parseDecimalChars raw with
    | none => none
    | some (neg, m, sc) =>
        if neg then none
        else
          let scaled := m * 1000000 / 10 ^ sc
          if scaled < U64 then some scaled else none

/-- Exact rational value of the decimal string accepted by
`percent_to_floored_u64` (0 where the parse fails); used to state the
round-trip property. -/
def decValue (s : String) : ℚ :=
  match parseDecimalChars (trimChars s.toList) with
  | some (_, m, sc) => (m : ℚ) / 10 ^ sc
  | none => 0

/-- Number of characters after the decimal point of the trimmed,
`_`-stripped input (the count of fractional digits for accepted strings). -/
def fracDigitCount (s : String) : Nat :=
  ((((trimChars s.toList).filter (fun c => c ≠ '_')).dropWhile
    (fun c => c ≠ '.')).tail).length

/-- A CSV data row as it reaches the serde row deserializers: the effective
date (already parsed; date parsing is orthogonal to the claims here) and the
raw text of the value column. -/
structure RawRow where
  date : Int
  value : String
  deriving DecidableEq, Repr

/-- Embedding of `de_scaled` (`src/sources/de.rs`): strict percent field
deserializer; an empty or `.` value is a row error (`none`). -/
def de_scaled (s : String) : Option Nat :=
  let t := trimChars s.toList
  if t = [] ∨ t = ['.'] then none
  else percent_to_floored_u64 (String.mk t)

/-- Embedding of `de_scaled_opt` (`src/sources/de.rs`): optional percent field
deserializer; an empty or `.` value deserializes to `none` instead of
erroring. The outer `Option` is deserialization success. -/
def de_scaled_opt (s : String) : Option (Option Nat) :=
  let t := trimChars s.toList
  if t = [] ∨ t = ['.'] then some none
  else (percent_to_floored_u64 (String.mk t)).map some

/-- Embedding of `FredCSVRow` (`src/sources/fred.rs`): the published-average
row of FRED, whose value column uses `de_scaled_opt`. -/
structure FredCSVRow where
  date : Int
  value : Option Nat
  deriving DecidableEq, Repr

/-- Embedding of `NYFedCSVRow` (`src/sources/nyfed.rs`): the published-average
row of the NY Fed, whose value column uses the strict `de_scaled`. -/
structure NYFedCSVRow where
  date : Int
  value : Nat
  deriving DecidableEq, Repr

/-- Row deserialization of `FredCSVRow` by serde with `de_scaled_opt`. -/
def fredDeserialize (r : RawRow) : Option FredCSVRow :=
  (de_scaled_opt r.value).map (fun v => ⟨r.date, v⟩)

/-- Row deserialization of `NYFedCSVRow` by serde with `de_scaled`. -/
def nyfedDeserialize (r : RawRow) : Option NYFedCSVRow :=
  (de_scaled r.value).map (fun v => ⟨r.date, v⟩)

/-- Row-by-row deserialization with fast failure
(`reader.deserialize().collect::<Result<Vec<R>, _>>()?` in
`src/sources/csv.rs`): the first bad row fails the whole collection. -/
def collectRows {ρ : Type} (deser : RawRow → Option ρ) : List RawRow → Option (List ρ)
  | [] => some []
  | r :: t =>
      match deser r with
      | none => none
      | some x => (collectRows deser t).map (fun xs => x :: xs)

/-- Embedding of `parse_csv_for_latest` (`src/sources/csv.rs`): deserialize
every row, failing the whole parse on the first bad row
(`collect::<Result<_, _>>`), retain the rows with a value, sort by date
(`sort_unstable_by_key`; insertion sort is one refinement of the unspecified
unstable order), and return the date and value of the last (most recent)
row, or fail when none survives. -/
def parse_csv_for_latest {ρ : Type} (deser : RawRow → Option ρ)
    (dateOf : ρ → Int) (valueOf : ρ → Nat) (hasValue : ρ → Bool)
    (rows : List RawRow) : Option (Int × Nat) :=
  match collectRows deser rows with
  | none => none
  | some rs =>
      let kept := rs.filter hasValue
      let sorted :=
        @List.insertionSort ρ (fun a b => dateOf a ≤ dateOf b)
          (fun a b => Int.decLe (dateOf a) (dateOf b)) kept
      match sorted.getLast? with
      | none => none
      | some last => some (dateOf last, valueOf last)

/-- The published-average parse of FRED (`Fred::parse` composed with
`parse_csv_for_latest::<FredCSVRow>`). -/
def fred_parse (rows : List RawRow) : Option (Int × Nat) :=
  parse_csv_for_latest fredDeserialize FredCSVRow.date
    (fun r => r.value.getD 0) (fun r => r.value.isSome) rows

/-- The published-average parse of the NY Fed (`NYFed::parse` composed with
`parse_csv_for_latest::<NYFedCSVRow>`). -/
def nyfed_parse (rows : List RawRow) : Option (Int × Nat) :=
  parse_csv_for_latest nyfedDeserialize NYFedCSVRow.date
    NYFedCSVRow.value (fun _ => true) rows

/-- Survivor predicate of the FRED published-average parse: the rows whose
value column deserializes to an actual value (is dropped neither as missing
nor by a parse failure). -/
def fredSurvives (r : RawRow) : Bool :=
  match de_scaled_opt r.value with
  | some (some _) => true
  | _ => false

/-- The `FredCSVRow` a successfully deserialized raw row yields (proof
device: meaningful when `de_scaled_opt` succeeds on the row). -/
def fredRowOf (r : RawRow) : FredCSVRow :=
  ⟨r.date, (de_scaled_opt r.value).getD none⟩

/-- The calendar-day loop of `compute_compounded_average`
(`src/sources/mod.rs`, also `OFR::compute_compounded` in
`src/sources/ofr.rs`): `k` remaining loop iterations starting at `day`;
`cur`/`curStart` are `current_rate`/`current_rate_start`; each day that has a
key in the series closes the previous segment (when nonempty) and starts a
new one; after the loop the final segment runs through `endDate`
inclusive. -/
def segBuild (rates : List (Int × Nat)) :
    Nat → Int → Nat → Int → Int → List (Nat × Nat) → List (Nat × Nat)
  | 0, _, cur, curStart, endDate, acc =>
      acc ++ [(cur, (endDate - curStart).toNat + 1)]
  | k + 1, day, cur, curStart, endDate, acc =>
      match rates.find? (fun p => p.1 = day) with
      | some p =>
          let ni := (day - curStart).toNat
          segBuild rates k (day + 1) p.2 day endDate
            (if 0 < ni then acc ++ [(cur, ni)] else acc)
      | none => segBuild rates k (day + 1) cur curStart endDate acc

/-- Segment construction of `compute_compounded_average`
(`src/sources/mod.rs`): the overnight series is a `BTreeMap`, modelled as its
entry list; `range(..=start_date).next_back()` is the last entry with key at
most `start_date`. The 30-day calculation period runs from
`effective_date - 30` through `effective_date - 1`, 30 calendar days. -/
def compute_compounded_segments (effective_date : Int)
    (overnight_rates : List (Int × Nat)) : Option (List (Nat × Nat)) :=
  if overnight_rates = [] then none
  else
    let start_date := effective_date - 30
    let calculation_end_date := effective_date - 1
    match (overnight_rates.filter (fun p => p.1 ≤ start_date)).getLast? with
    | none => none
    | some p0 =>
        some (segBuild overnight_rates 30 start_date p0.2 start_date
          calculation_end_date [])

/-- UTF-8 encoding of a single character (the byte sequence Rust strings
store). -/
def utf8EncodeCharBytes (c : Char) : List Nat :=
  let n := c.toNat
  if n < 128 then [n]
  else if n < 2048 then [192 + n / 64, 128 + n % 64]
  else if n < 65536 then [224 + n / 4096, 128 + n / 64 % 64, 128 + n % 64]
  else [240 + n / 262144, 128 + n / 4096 % 64, 128 + n / 64 % 64, 128 + n % 64]

/-- UTF-8 bytes of a string. -/
def utf8Bytes (s : String) : List Nat :=
  (s.toList.map utf8EncodeCharBytes).flatten

/-- MessagePack encoding of a string (`str` family): fixstr below 32 bytes,
then `str8`/`str16`/`str32` with big-endian lengths. -/
def msgpackStr (s : String) : List Nat :=
  let b := utf8Bytes s
  let n := b.length
  if n < 32 then (160 + n) :: b
  else if n < 256 then 217 :: n :: b
  else if n < 65536 then 218 :: n / 256 :: n % 256 :: b
  else 219 :: n / 16777216 % 256 :: n / 65536 % 256 :: n / 256 % 256 :: n % 256 :: b

/-- Big-endian 8-byte encoding of a `u64` (`nonce.to_be_bytes()`). -/
def be8 (nonce : Nat) : List Nat :=
  [nonce / 72057594037927936 % 256, nonce / 281474976710656 % 256,
   nonce / 1099511627776 % 256, nonce / 4294967296 % 256,
   nonce / 16777216 % 256, nonce / 65536 % 256, nonce / 256 % 256, nonce % 256]

/-- The byte string hashed by `action_hash` (`src/chain/signing.rs`):
`rmp_serde::to_vec_named` of the `ValidatorL1StreamAction` struct
(`src/chain/types.rs`) — a 2-entry MessagePack map whose keys appear in
declaration order, `type` (value `"validatorL1Stream"`) then `riskFreeRate`
(the rate string) — followed by the big-endian nonce and the empty-vault
zero byte. `keccak256` is then applied to exactly these bytes, so equal byte
strings give equal action hashes. -/
def action_bytes (rate : String) (nonce : Nat) : List Nat :=
  130 :: msgpackStr "type" ++ msgpackStr "validatorL1Stream" ++
    msgpackStr "riskFreeRate" ++ msgpackStr rate ++ be8 nonce ++ [0]

/-- Value of a big-endian byte list, for inverting `be8`. -/
def beVal (l : List Nat) : Nat :=
  l.foldl (fun a b => a * 256 + b) 0

/-- The sixteen lowercase hexadecimal digit characters. -/
def hexCharList : List Char := "0123456789abcdef".toList

/-- Lowercase hexadecimal digit of a value below 16. -/
def hexDigitChar (d : Nat) : Char := hexCharList.getD d '0'

/-- Model of `ruint`'s `fmt::LowerHex` for `U256` (`alloy_primitives::U256`,
the type of `signature.r()`/`signature.s()`): each of the four 64-bit limbs
is written as 16 zero-padded hex digits, most significant first, so the
output is always exactly 64 lowercase hex digits with leading zeros
preserved. -/
def u256_lower_hex (n : Nat) : List Char :=
  (List.range 64).map (fun i => hexDigitChar (n / 16 ^ (63 - i) % 16))

/-- The `r`/`s` field of the POST body built in `HyperliquidClient::submit_vote`
(`src/chain/api.rs`): `format!("0x{:x}", scalar)`. -/
def signature_scalar_field (r : Nat) : String :=
  "0x" ++ String.mk (u256_lower_hex r)

/-- Fueled binary logarithm: `log2fuel fuel n` equals `Nat.log2 n` whenever
`n ≤ fuel`. Core's `Nat.log2` uses well-founded recursion, which the kernel
cannot evaluate; this structural version computes. -/
def log2fuel : Nat → Nat → Nat
  | 0, _ => 0
  | fuel + 1, n => if 2 ≤ n then log2fuel fuel (n / 2) + 1 else 0

/-- Computable `Nat.log2`. -/
def natLog2 (n : Nat) : Nat := log2fuel n n

/-- Decidable test of `2 ^ e ≤ a / b` for naturals `a`, `b > 0` and an integer
exponent `e`, by clearing denominators. -/
def le2pow (e : Int) (a b : Nat) : Bool :=
  if 0 ≤ e then decide (b * 2 ^ e.toNat ≤ a) else decide (b ≤ a * 2 ^ (-e).toNat)

/-- Binade exponent of the positive rational `a / b`: the unique `e` with
`2 ^ e ≤ a / b < 2 ^ (e + 1)`, located from the binary logarithms of `a` and
`b` and one comparison. -/
def natRatExp (a b : Nat) : Int :=
  let g : Int := (natLog2 a : Int) - (natLog2 b : Int)
  if le2pow g a b then g else g - 1

/-- Round `a / b` (with `b > 0`) to the nearest natural, ties to even — the
IEEE-754 rounding used by `f64` arithmetic and by Rust's `{:.8}`
formatting. -/
def divRoundHalfEven (a b : Nat) : Nat :=
  let q := a / b
  let r := a % b
  if 2 * r < b then q
  else if b < 2 * r then q + 1
  else if q % 2 = 0 then q else q + 1

/-- IEEE-754 binary64 rounding (round to nearest, ties to even) of the
rational `a / b`, for `a`, `b > 0` in the normal finite range, returned as an
exact mantissa/exponent pair `(m, k)` denoting `m * 2 ^ k`: the quotient is
scaled into the binade `[2 ^ 52, 2 ^ 53]` and rounded half-even. This is
the exact value a Rust `f64` holds after the corresponding operation. -/
def f64round (a b : Nat) : Nat × Int :=
  let e := natRatExp a b
  let s := 52 - e
  let m := if 0 ≤ s then divRoundHalfEven (a * 2 ^ s.toNat) b
           else divRoundHalfEven a (b * 2 ^ (-s).toNat)
  (m, e - 52)

/-- Exact rational value of a mantissa/exponent pair. -/
def f64val (p : Nat × Int) : ℚ :=
  if 0 ≤ p.2 then (p.1 : ℚ) * ((2 ^ p.2.toNat : ℕ) : ℚ)
  else (p.1 : ℚ) / ((2 ^ (-p.2).toNat : ℕ) : ℚ)

/-- Pad a digit list on the left with `'0'` to 8 characters. -/
def padTo8 (l : List Char) : List Char :=
  List.replicate (8 - l.length) '0' ++ l

/-- Decimal rendering of `n / 10 ^ 8` with exactly 8 fractional digits: the
integer part, a point, and the zero-padded 8-digit fractional part. This is
the exact fixed-point form `{:.8}` produces when no rounding is needed. -/
def renderFixed8 (n : Nat) : String :=
  String.mk (Nat.toDigits 10 (n / 100000000) ++
    '.' :: padTo8 (Nat.toDigits 10 (n % 100000000)))

/-- Embedding of `fmt_scaled_rate` (`src/utils.rs`):
`format!("{:.8}", scaled_rate as f64 / 100_000_000.0)`, carried out on exact
mantissa/exponent pairs. Step 1 is the `u64` to `f64` conversion (round to
nearest, ties to even). Step 2 writes the double divided by the exactly
representable constant `100_000_000.0` as an exact fraction and rounds it to
binary64 again — IEEE division = correctly rounded exact quotient. Step 3
is `{:.8}`: Rust formats the exact value of the resulting double rounded to
8 fractional digits, ties to even, which is the half-even integer rounding
of that value times `10 ^ 8`. -/
def fmt_scaled_rate (scaled_rate : Nat) : String :=
  let d1 := f64round scaled_rate 1
  let frac := if 0 ≤ d1.2 then (d1.1 * 2 ^ d1.2.toNat, 100000000)
              else (d1.1, 100000000 * 2 ^ (-d1.2).toNat)
  let d2 := f64round frac.1 frac.2
  let m8 := if 0 ≤ d2.2 then d2.1 * 2 ^ d2.2.toNat * 100000000
            else divRoundHalfEven (d2.1 * 100000000) (2 ^ (-d2.2).toNat)
  renderFixed8 m8

end AqaPublisher

namespace AqaPublisher

/-- Decoding a big-endian 8-byte encoding recovers any value below `2 ^ 64`. -/
theorem beVal_be8 (n : Nat) (h : n < 18446744073709551616) : beVal (be8 n) = n := by
  simp only [be8, beVal, List.foldl]
  omega

/-- Every hex digit character produced by `hexDigitChar` is a lowercase hex
character. -/
theorem hexDigitChar_mem (d : Nat) : hexDigitChar d ∈ hexCharList := by
  by_cases h : d < hexCharList.length
  · rw [hexDigitChar, hexCharList.getD_eq_getElem _ h]
    exact List.getElem_mem h
  · rw [hexDigitChar, List.getD_eq_default _ _ (Nat.le_of_not_lt h)]
    decide

/-- C1 (counterexample): applying the two transforms of `get_aqa_ref_rate` —
`adjust_basis` with ratio `487 / 480` and flooring, then the `85 / 100`
scalar with flooring — to the median rate `4_293_200` does not give
`3_701_946`, contradicting the claimed value. -/
theorem C1_counterexample : aqa_reference_rate 4293200 ≠ 3701946 := by decide

/-- C1 (amended): for the median rate `4_293_200`, the pipeline of
`get_aqa_ref_rate` (`adjust_basis` with the literal ratio `487 / 480` and
flooring, then the `85 / 100` scalar with flooring, in that order) produces
the AQA reference rate `3_702_437`: the basis adjustment gives `4_355_809`
and the scalar then gives `3_702_437`. -/
theorem C1_aqa_pipeline : adjust_basis 4293200 = 4355809 ∧
    aqa_reference_rate 4293200 = 3702437 := by decide

/-- C9: every signature scalar serialized by `submit_vote` is `"0x"` followed
by exactly 64 lowercase hexadecimal characters — the 32-byte scalar
left-padded with zeros — for all scalar values, including those with leading
zero bytes. -/
theorem C9_signature_hex_field (r : Nat) :
    ∃ l : List Char, signature_scalar_field r = String.mk ('0' :: 'x' :: l) ∧
      l.length = 64 ∧ ∀ c ∈ l, c ∈ hexCharList := by
  refine ⟨u256_lower_hex r, ?_, ?_, ?_⟩
  · rfl
  · simp [u256_lower_hex]
  · intro c hc
    simp only [u256_lower_hex, List.mem_map] at hc
    obtain ⟨i, _, rfl⟩ := hc
    exact hexDigitChar_mem _

/-- C8: the byte string hashed by `action_hash` is a function only of the
pair `(rate_string, nonce)` (it is literally `action_bytes rate nonce`, and
`keccak256` is applied to exactly these bytes, so equal inputs give equal
hashes); the MessagePack map emits the key `type` (bytes
`164, 116, 121, 112, 101`) before `riskFreeRate` — never alphabetical
reordering; and changing the nonce changes the bytes. -/
theorem C8_action_bytes (rate : String) (n1 n2 : Nat)
    (h1 : n1 < 18446744073709551616) (h2 : n2 < 18446744073709551616)
    (hne : n1 ≠ n2) :
    (action_bytes rate n1 =
      [130, 164, 116, 121, 112, 101] ++ msgpackStr "validatorL1Stream" ++
        (msgpackStr "riskFreeRate" ++ msgpackStr rate) ++ be8 n1 ++ [0]) ∧
    action_bytes rate n1 ≠ action_bytes rate n2 := by
  have htype : msgpackStr "type" = [164, 116, 121, 112, 101] := by decide
  constructor
  · simp [action_bytes, htype]
  · intro h
    apply hne
    simp only [action_bytes] at h
    have h' := List.cons_injective.eq_iff.mp h
    have h3 : msgpackStr "type" ++ (msgpackStr "validatorL1Stream" ++
        (msgpackStr "riskFreeRate" ++ (msgpackStr rate ++ (be8 n1 ++ [0])))) =
        msgpackStr "type" ++ (msgpackStr "validatorL1Stream" ++
        (msgpackStr "riskFreeRate" ++ (msgpackStr rate ++ (be8 n2 ++ [0])))) := by
      simpa [List.append_assoc] using h'
    have hsuffix := List.append_cancel_left (List.append_cancel_left
      (List.append_cancel_left (List.append_cancel_left h3)))
    have hbe : be8 n1 = be8 n2 := List.append_cancel_right hsuffix
    calc n1 = beVal (be8 n1) := (beVal_be8 n1 h1).symm
      _ = beVal (be8 n2) := by rw [hbe]
      _ = n2 := beVal_be8 n2 h2

/-- Getting an element at an in-range index with a default yields a list
member. -/
theorem getD_mem_of_lt {α : Type} [Inhabited α] {l : List α} {i : Nat}
    (h : i < l.length) : l.getD i default ∈ l := by
  rw [List.getD_eq_getElem _ _ h]
  exact List.getElem_mem h

/-- A member of a list whose elements all pass the plausibility check has
rate at most `15_000_000`. -/
theorem rate_le_of_all_plausible {l : List Obs}
    (hpl : (l.all fun o => plausible_rate o.rate) = true)
    {o : Obs} (ho : o ∈ l) : o.rate ≤ 15000000 := by
  have h := List.all_eq_true.mp hpl o ho
  simp only [plausible_rate, Bool.and_eq_true, decide_eq_true_eq] at h
  exact h.1

/-- The rate-sorted observation list is a permutation of the input. -/
theorem sortedByRate_perm (l : List Obs) : (sortedByRate l).Perm l :=
  List.perm_insertionSort rateLE l

/-- C3: for every list of at least two observations, the agreement check of
`compute_validated_median` fails with `sourcesDisagree` exactly when no pair
has rates within `50_000` of each other; a two-observation input differing by
exactly `50_000` passes (and here succeeds outright), while one differing by
`50_001` fails. -/
theorem C3_agreement_check (q : Int) (l : List Obs) (h2 : 2 ≤ l.length) :
    (compute_validated_median q l = .error .sourcesDisagree ↔
      has_valid_pair l = false) ∧
    compute_validated_median 100 [⟨"A", 100, 4293200⟩, ⟨"B", 100, 4343201⟩] =
      .error .sourcesDisagree ∧
    compute_validated_median 100 [⟨"A", 100, 4293200⟩, ⟨"B", 100, 4343200⟩] =
      .ok (100, 4318200) := by
  refine ⟨?_, by rfl, by rfl⟩
  unfold compute_validated_median
  rw [if_neg (by omega)]
  cases hp : has_valid_pair l
  · simp
  · simp only [Bool.not_true, Bool.false_eq_true, if_false, iff_false]
    split
    · simp
    · split <;> simp

/-- C4: for every list of observations passing the earlier checks, the
staleness check of `compute_validated_median` selects, from the
ascending-sorted effective dates, the lower of the two middle dates for even
counts (the single middle for odd), and fails with `staleData` exactly when
that selected date is strictly earlier than `query_date - 7`. A selected
date 8 days behind the query date fails; one exactly 7 days behind
passes. -/
theorem C4_staleness_check (q : Int) (l : List Obs) (h2 : 2 ≤ l.length)
    (hp : has_valid_pair l = true)
    (hpl : (l.all fun o => plausible_rate o.rate) = true) :
    (∀ ds : List Int, ds.Perm (l.map Obs.date) → ds.Sorted (· ≤ ·) →
      (compute_validated_median q l = .error .staleData ↔
        ds.getD (if ds.length % 2 = 0 then ds.length / 2 - 1 else ds.length / 2) 0 <
          q - 7)) ∧
    compute_validated_median 100 [⟨"A", 92, 4293200⟩, ⟨"B", 92, 4293200⟩] =
      .error .staleData ∧
    compute_validated_median 100 [⟨"A", 93, 4293200⟩, ⟨"B", 93, 4293200⟩] =
      .ok (93, 4293200) := by
  refine ⟨?_, by rfl, by rfl⟩
  intro ds hperm hsorted
  have hds : ds = sortedDates l := by
    refine List.eq_of_perm_of_sorted
      (hperm.trans (List.perm_insertionSort _ _).symm) hsorted ?_
    exact List.sorted_insertionSort _ _
  subst hds
  have hsel : median_returned_date l =
      (sortedDates l).getD
        (if (sortedDates l).length % 2 = 0 then (sortedDates l).length / 2 - 1
         else (sortedDates l).length / 2) 0 := by
    simp only [median_returned_date]
    split <;> simp_all
  unfold compute_validated_median
  rw [if_neg (by omega), if_neg (by simp [hp]), if_neg (by simp [hpl])]
  rw [← hsel]
  by_cases hc : 7 < q - median_returned_date l
  · rw [if_pos hc]
    exact iff_of_true rfl (by omega)
  · rw [if_neg hc]
    exact iff_of_false (by simp) (by omega)

/-- C5: whenever `compute_validated_median` returns successfully, the
returned scaled rate is at most `15_000_000` — including the even-count
branch, whose truncated average of the two middle rates stays within the
bound because the plausibility check on every observation runs before median
selection. -/
theorem C5_validated_median_bounded (q : Int) (l : List Obs) (d : Int) (v : Nat)
    (h : compute_validated_median q l = .ok (d, v)) : v ≤ 15000000 := by
  unfold compute_validated_median at h
  split at h
  · exact absurd h (by simp)
  · split at h
    · exact absurd h (by simp)
    · split at h
      · exact absurd h (by simp)
      · split at h
        · exact absurd h (by simp)
        · rename_i hlen hpair hplaus hstale
          have hplaus' : (l.all fun o => plausible_rate o.rate) = true := by
            simpa using hplaus
          have hlen2 : 2 ≤ l.length := by omega
          have hslen : (sortedByRate l).length = l.length :=
            (sortedByRate_perm l).length_eq
          simp only [Except.ok.injEq, select_median] at h
          split at h
          · rename_i hpar
            simp only [Prod.mk.injEq] at h
            have hm1 : (sortedByRate l).getD ((sortedByRate l).length / 2 - 1) default ∈ l :=
              (sortedByRate_perm l).mem_iff.mp (getD_mem_of_lt (by omega))
            have hm2 : (sortedByRate l).getD ((sortedByRate l).length / 2) default ∈ l :=
              (sortedByRate_perm l).mem_iff.mp (getD_mem_of_lt (by omega))
            have hr1 := rate_le_of_all_plausible hplaus' hm1
            have hr2 := rate_le_of_all_plausible hplaus' hm2
            have hU : U64 = 18446744073709551616 := rfl
            rw [hU] at h
            omega
          · rename_i hpar
            simp only [Prod.mk.injEq] at h
            have hm : (sortedByRate l).getD ((sortedByRate l).length / 2) default ∈ l :=
              (sortedByRate_perm l).mem_iff.mp (getD_mem_of_lt (by omega))
            have hr := rate_le_of_all_plausible hplaus' hm
            omega

/-- On a three-observation list, the rate selected by `select_median` is the
order-theoretic median of the three rates. -/
theorem select_median_three (a b c : Obs) :
    (select_median [a, b, c]).2 = mid3 a.rate b.rate c.rate := by
  simp only [select_median, sortedByRate, List.insertionSort, List.orderedInsert]
  by_cases h1 : rateLE b c <;> by_cases h2 : rateLE a b <;> by_cases h3 : rateLE a c <;>
    simp only [rateLE] at h1 h2 h3 <;>
    simp [h1, h2, h3, rateLE, List.getD, mid3] <;> omega

/-- C2: for every list of observations that passes the source-count,
agreement, plausibility, and staleness checks, `compute_validated_median`
returns, for some rate-sorted permutation `s` of the input: for odd count
the `(date, rate)` of the middle element of `s`; for even count the date of
the lower-middle element of `s` paired with the truncating integer average
of the two middle rates. In particular, for every triple passing the
checks, the returned rate is the middle rate (`mid3`), never an extreme. -/
theorem C2_median_selection (q : Int) (l : List Obs) (h2 : 2 ≤ l.length)
    (hp : has_valid_pair l = true)
    (hpl : (l.all fun o => plausible_rate o.rate) = true)
    (hst : q - median_returned_date l ≤ 7) :
    (∃ s : List Obs, s.Perm l ∧ s.Sorted rateLE ∧
      compute_validated_median q l =
        .ok (if s.length % 2 = 0 then
              ((s.getD (s.length / 2 - 1) default).date,
                ((s.getD (s.length / 2 - 1) default).rate +
                  (s.getD (s.length / 2) default).rate) / 2)
            else
              ((s.getD (s.length / 2) default).date,
                (s.getD (s.length / 2) default).rate))) ∧
    (∀ a b c : Obs, l = [a, b, c] →
      ∃ d : Int, compute_validated_median q l = .ok (d, mid3 a.rate b.rate c.rate)) := by
  have hcvm : compute_validated_median q l = .ok (select_median l) := by
    unfold compute_validated_median
    rw [if_neg (by omega), if_neg (by simp [hp]), if_neg (by simp [hpl]),
      if_neg (by omega)]
  have hslen : (sortedByRate l).length = l.length := (sortedByRate_perm l).length_eq
  refine ⟨⟨sortedByRate l, sortedByRate_perm l, List.sorted_insertionSort _ _, ?_⟩, ?_⟩
  · rw [hcvm]
    congr 1
    simp only [select_median]
    split
    · rename_i hpar
      have hm1 : (sortedByRate l).getD ((sortedByRate l).length / 2 - 1) default ∈ l :=
        (sortedByRate_perm l).mem_iff.mp (getD_mem_of_lt (by omega))
      have hm2 : (sortedByRate l).getD ((sortedByRate l).length / 2) default ∈ l :=
        (sortedByRate_perm l).mem_iff.mp (getD_mem_of_lt (by omega))
      have hr1 := rate_le_of_all_plausible hpl hm1
      have hr2 := rate_le_of_all_plausible hpl hm2
      have hU : U64 = 18446744073709551616 := rfl
      rw [hU, Nat.mod_eq_of_lt (by omega)]
    · rfl
  · intro a b c hl
    subst hl
    exact ⟨(select_median [a, b, c]).1, by rw [hcvm, ← select_median_three a b c]⟩

/-- Invariant of the segment-building loop `segBuild`: if the loop starts at
a day no earlier than the current segment start, the segment start is within
the period, and the loop runs exactly through `endDate`, then the produced
segments (beyond the accumulator) all have positive day counts and their day
counts sum to the number of days from the current segment start through
`endDate` inclusive. -/
theorem segBuild_spec (rates : List (Int × Nat)) (endDate : Int) :
    ∀ (k : Nat) (day : Int) (cur : Nat) (curStart : Int) (acc : List (Nat × Nat)),
      curStart ≤ day → curStart ≤ endDate → day + k = endDate + 1 →
      ∃ rest : List (Nat × Nat),
        segBuild rates k day cur curStart endDate acc = acc ++ rest ∧
        (∀ x ∈ rest, 1 ≤ x.2) ∧
        (((rest.map Prod.snd).sum : Int) = endDate + 1 - curStart) := by
  intro k
  induction k with
  | zero =>
    intro day cur curStart acc h1 h2 h3
    refine ⟨[(cur, (endDate - curStart).toNat + 1)], rfl, ?_, ?_⟩
    · intro x hx
      simp only [List.mem_singleton] at hx
      subst hx
      omega
    · simp
      omega
  | succ n ih =>
    intro day cur curStart acc h1 h2 h3
    rw [segBuild]
    cases hfind : rates.find? (fun p => p.1 = day) with
    | none =>
      exact ih (day + 1) cur curStart acc (by omega) h2 (by omega)
    | some p =>
      dsimp only
      have hday : day ≤ endDate := by omega
      by_cases hni : 0 < (day - curStart).toNat
      · rw [if_pos hni]
        obtain ⟨rest', heq, hpos, hsum⟩ :=
          ih (day + 1) p.2 day (acc ++ [(cur, (day - curStart).toNat)])
            (by omega) hday (by omega)
        refine ⟨(cur, (day - curStart).toNat) :: rest', ?_, ?_, ?_⟩
        · rw [heq, List.append_assoc]
          rfl
        · intro x hx
          rcases List.mem_cons.mp hx with h | h
          · subst h; exact hni
          · exact hpos x h
        · simp only [List.map_cons, List.sum_cons]
          omega
      · rw [if_neg hni]
        have hcs : curStart = day := by omega
        subst hcs
        obtain ⟨rest', heq, hpos, hsum⟩ :=
          ih (curStart + 1) p.2 curStart acc (by omega) h2 (by omega)
        exact ⟨rest', heq, hpos, by omega⟩

/-- C7: for every effective date and overnight series containing at least one
key at or before `effective_date - 30`, the segment list `(rate, n_i)` built
by `compute_compounded_average` exists, every `n_i` is at least 1, and the
`n_i` sum to 30. -/
theorem C7_segments (effective_date : Int) (overnight_rates : List (Int × Nat))
    (hhist : ∃ p ∈ overnight_rates, p.1 ≤ effective_date - 30) :
    ∃ segs : List (Nat × Nat),
      compute_compounded_segments effective_date overnight_rates = some segs ∧
      (∀ x ∈ segs, 1 ≤ x.2) ∧ (segs.map Prod.snd).sum = 30 := by
  obtain ⟨p, hmem, hle⟩ := hhist
  have hne : overnight_rates ≠ [] := List.ne_nil_of_mem hmem
  have hfmem : p ∈ overnight_rates.filter (fun q => q.1 ≤ effective_date - 30) := by
    rw [List.mem_filter]
    exact ⟨hmem, by simpa using hle⟩
  have hfne : overnight_rates.filter (fun q => q.1 ≤ effective_date - 30) ≠ [] :=
    List.ne_nil_of_mem hfmem
  obtain ⟨p0, hp0⟩ :=
    Option.isSome_iff_exists.mp (List.getLast?_isSome.mpr hfne)
  obtain ⟨rest, heq, hpos, hsum⟩ :=
    segBuild_spec overnight_rates (effective_date - 1) 30 (effective_date - 30)
      p0.2 (effective_date - 30) [] (le_refl _) (by omega) (by omega)
  refine ⟨rest, ?_, hpos, by omega⟩
  simp only [compute_compounded_segments, if_neg hne, hp0]
  rw [heq]
  simp

/-- Witness for C2: Scenario A, three agreeing sources; the returned rate is
the middle rate `4_293_200`. -/
theorem C2_median_selection_witness :
    ∃ d : Int, compute_validated_median 100
      [⟨"F", 100, 4293200⟩, ⟨"N", 100, 4303200⟩, ⟨"O", 100, 4283200⟩] =
      .ok (d, mid3 4293200 4303200 4283200) :=
  (C2_median_selection 100
    [⟨"F", 100, 4293200⟩, ⟨"N", 100, 4303200⟩, ⟨"O", 100, 4283200⟩]
    (by decide) (by decide) (by decide) (by decide)).2
    ⟨"F", 100, 4293200⟩ ⟨"N", 100, 4303200⟩ ⟨"O", 100, 4283200⟩ rfl

/-- Witness for C3: a two-observation input whose rates agree within
`50_000` never yields `sourcesDisagree`. -/
theorem C3_agreement_check_witness :
    compute_validated_median 0 [⟨"A", 0, 100⟩, ⟨"B", 0, 200⟩] =
      .error .sourcesDisagree ↔
    has_valid_pair [⟨"A", 0, 100⟩, ⟨"B", 0, 200⟩] = false :=
  (C3_agreement_check 0 [⟨"A", 0, 100⟩, ⟨"B", 0, 200⟩] (by decide)).1

/-- Witness for C4: Scenario D, all observations 8 days behind the query
date fail with `staleData`. -/
theorem C4_staleness_check_witness :
    compute_validated_median 100 [⟨"A", 92, 4293200⟩, ⟨"B", 92, 4293200⟩] =
      .error .staleData :=
  (C4_staleness_check 100 [⟨"A", 92, 4293200⟩, ⟨"B", 92, 4293200⟩]
    (by decide) (by decide) (by decide)).2.1

/-- Witness for C5: Scenario B, a two-source average `4_313_200`, within the
`15_000_000` bound. -/
theorem C5_validated_median_bounded_witness :
    (4313200 : Nat) ≤ 15000000 ∧
    compute_validated_median 100 [⟨"A", 100, 4293200⟩, ⟨"B", 100, 4333200⟩] =
      .ok (100, 4313200) :=
  ⟨C5_validated_median_bounded 100 [⟨"A", 100, 4293200⟩, ⟨"B", 100, 4333200⟩]
    100 4313200 (by rfl), by rfl⟩

/-- Witness for C7: a one-entry series carried across the whole 30-day
period produces a single segment of 30 days. -/
theorem C7_segments_witness :
    ∃ segs : List (Nat × Nat),
      compute_compounded_segments 30 [(0, 400)] = some segs ∧
      (∀ x ∈ segs, 1 ≤ x.2) ∧ (segs.map Prod.snd).sum = 30 :=
  C7_segments 30 [(0, 400)] ⟨(0, 400), by decide, by decide⟩

/-- Witness for C8: the Scenario I action bytes, with nonce
`1_700_000_000_000`; bumping the nonce by one changes the bytes. -/
theorem C8_action_bytes_witness :
    (action_bytes "0.03701946" 1700000000000 =
      [130, 164, 116, 121, 112, 101] ++ msgpackStr "validatorL1Stream" ++
        (msgpackStr "riskFreeRate" ++ msgpackStr "0.03701946") ++
        be8 1700000000000 ++ [0]) ∧
    action_bytes "0.03701946" 1700000000000 ≠
      action_bytes "0.03701946" 1700000000001 :=
  C8_action_bytes "0.03701946" 1700000000000 1700000000001
    (by decide) (by decide) (by decide)

/-- The row collection fails as soon as any row fails (modelling
`collect::<Result<_, _>>` fast-fail). -/
theorem collectRows_eq_none_of_mem {ρ : Type} (f : RawRow → Option ρ) :
    ∀ (l : List RawRow) (a : RawRow), a ∈ l → f a = none →
      collectRows f l = none := by
  intro l
  induction l with
  | nil => intro a ha _; simp at ha
  | cons x t ih =>
    intro a ha hfa
    rcases List.mem_cons.mp ha with h | h
    · subst h; simp [collectRows, hfa]
    · cases hfx : f x <;> simp [collectRows, hfx, ih a h hfa]

/-- When every row's value field deserializes, the FRED row collection is the
plain map. -/
theorem fred_collectRows (rows : List RawRow)
    (hok : ∀ r ∈ rows, de_scaled_opt r.value ≠ none) :
    collectRows fredDeserialize rows = some (rows.map fredRowOf) := by
  induction rows with
  | nil => rfl
  | cons r t ih =>
    cases hov : de_scaled_opt r.value with
    | none => exact absurd hov (hok r (List.mem_cons_self r t))
    | some ov =>
      have ht := ih (fun x hx => hok x (List.mem_cons_of_mem r hx))
      simp [collectRows, fredDeserialize, hov, ht, fredRowOf]

/-- The `has_value` test after deserialization agrees with the raw survivor
test. -/
theorem fredRowOf_isSome (r : RawRow) :
    (fredRowOf r).value.isSome = fredSurvives r := by
  simp only [fredRowOf, fredSurvives]
  cases hov : de_scaled_opt r.value with
  | none => rfl
  | some ov => cases ov <;> rfl

/-- In a `Pairwise R` list, every element is the last element or relates to
it by `R`. -/
theorem rel_getLast?_of_pairwise {α : Type} {R : α → α → Prop} :
    ∀ {l : List α} {m : α}, l.Pairwise R → l.getLast? = some m →
      ∀ x ∈ l, x = m ∨ R x m := by
  intro l
  induction l with
  | nil => intro m _ h; simp at h
  | cons a t ih =>
    intro m hp hlast x hx
    cases t with
    | nil =>
      simp only [List.getLast?_singleton, Option.some.injEq] at hlast
      simp only [List.mem_singleton] at hx
      subst hlast; subst hx
      exact Or.inl rfl
    | cons b t' =>
      rw [List.getLast?_cons_cons] at hlast
      rcases List.mem_cons.mp hx with h | hx'
      · subst h
        right
        have hm : m ∈ b :: t' := List.mem_of_getLast?_eq_some hlast
        exact (List.pairwise_cons.mp hp).1 m hm
      · exact ih (List.pairwise_cons.mp hp).2 hlast x hx'

/-- Characterization of the FRED published-average parse when every row's
value field deserializes (is empty, `.`, or a valid percent): it fails
exactly when no row survives, and otherwise returns the date and value of a
maximal-date surviving row. -/
theorem fred_parse_spec (rows : List RawRow)
    (hok : ∀ r ∈ rows, de_scaled_opt r.value ≠ none) :
    (fred_parse rows = none ↔ rows.filter fredSurvives = []) ∧
    (rows.filter fredSurvives ≠ [] →
      ∃ r, r ∈ rows.filter fredSurvives ∧
        (∀ x ∈ rows.filter fredSurvives, x.date ≤ r.date) ∧
        ∃ v, de_scaled_opt r.value = some (some v) ∧
          fred_parse rows = some (r.date, v)) := by
  haveI htot : IsTotal FredCSVRow (fun a b => a.date ≤ b.date) :=
    ⟨fun a b => Int.le_total a.date b.date⟩
  haveI htrans : IsTrans FredCSVRow (fun a b => a.date ≤ b.date) :=
    ⟨fun _ _ _ h h' => le_trans h h'⟩
  unfold fred_parse parse_csv_for_latest
  rw [fred_collectRows rows hok]
  dsimp only
  have hkept : (rows.map fredRowOf).filter (fun r => r.value.isSome) =
      (rows.filter fredSurvives).map fredRowOf := by
    rw [List.filter_map]
    congr 1
    exact List.filter_congr (fun r _ => fredRowOf_isSome r)
  rw [hkept]
  set mapped := (rows.filter fredSurvives).map fredRowOf with hmapped
  set sorted :=
    @List.insertionSort FredCSVRow (fun a b => a.date ≤ b.date)
      (fun a b => Int.decLe a.date b.date) mapped with hsorted
  have hperm : sorted.Perm mapped := List.perm_insertionSort _ _
  have hsort : sorted.Pairwise (fun a b => a.date ≤ b.date) :=
    List.sorted_insertionSort _ _
  constructor
  · cases hlast : sorted.getLast? with
    | none =>
      rw [List.getLast?_eq_none_iff] at hlast
      have hmnil : mapped = [] :=
        (show ([] : List FredCSVRow).Perm mapped from hlast ▸ hperm).symm.eq_nil
      have hfil : rows.filter fredSurvives = [] := by
        simpa [hmapped, List.map_eq_nil_iff] using hmnil
      exact iff_of_true rfl hfil
    | some last =>
      refine iff_of_false (by simp) ?_
      intro hfil
      have hmnil : mapped = [] := by rw [hmapped, hfil]; rfl
      have hsnil : sorted = [] := (hmnil ▸ hperm).eq_nil
      rw [hsnil] at hlast
      simp at hlast
  · intro hne
    have hmne : mapped ≠ [] := by
      rw [hmapped]
      simpa [List.map_eq_nil_iff] using hne
    have hsne : sorted ≠ [] := fun h => hmne (h ▸ hperm).symm.eq_nil
    obtain ⟨last, hlast⟩ :=
      Option.isSome_iff_exists.mp (List.getLast?_isSome.mpr hsne)
    have hlmem : last ∈ mapped :=
      hperm.mem_iff.mp (List.mem_of_getLast?_eq_some hlast)
    obtain ⟨r, hr, hfr⟩ := List.mem_map.mp hlmem
    have hmax : ∀ x ∈ rows.filter fredSurvives, x.date ≤ r.date := by
      intro x hx
      have hx' : fredRowOf x ∈ sorted :=
        hperm.mem_iff.mpr (List.mem_map_of_mem _ hx)
      rcases rel_getLast?_of_pairwise hsort hlast _ hx' with h | h
      · rw [← hfr] at h
        have hd : x.date = r.date := congrArg FredCSVRow.date h
        exact le_of_eq hd
      · rw [← hfr] at h
        exact h
    have hsurvb : fredSurvives r = true := (List.mem_filter.mp hr).2
    have hval : ∃ v, de_scaled_opt r.value = some (some v) := by
      revert hsurvb
      simp only [fredSurvives]
      cases de_scaled_opt r.value with
      | none => simp
      | some ov =>
        cases ov with
        | none => simp
        | some v => exact fun _ => ⟨v, rfl⟩
    obtain ⟨v, hov⟩ := hval
    refine ⟨r, hr, hmax, v, hov, ?_⟩
    rw [hlast]
    dsimp only
    rw [← hfr]
    simp [fredRowOf, hov]

/-- C6 (counterexample): a NY Fed published-average CSV whose second row has
an empty value field fails the whole parse (`none`) instead of dropping the
row; the same rows through the FRED deserializer drop the empty row and
return the other one, so the claim's "every source drops such rows" is
false for the NY Fed. -/
theorem C6_counterexample :
    nyfed_parse [⟨0, "4.29"⟩, ⟨1, ""⟩] = none ∧
    fred_parse [⟨0, "4.29"⟩, ⟨1, ""⟩] = some (0, 4290000) := by decide

/-- C6 (amended): for the FRED published-average parse, rows whose value
field is empty or `.` are dropped rather than causing a parse error (given
every row's value field deserializes), the parse fails exactly when zero
rows survive, and otherwise a row with the maximum date among surviving rows
is returned — independent of input row order when dates are distinct. The
NY Fed published-average parse instead fails outright on any row with an
empty or `.` value field. -/
theorem C6_published_average_parse (rows : List RawRow)
    (hok : ∀ r ∈ rows, de_scaled_opt r.value ≠ none)
    (hnd : (rows.map RawRow.date).Nodup) :
    (fred_parse rows = none ↔ rows.filter fredSurvives = []) ∧
    (rows.filter fredSurvives ≠ [] →
      ∃ r, r ∈ rows.filter fredSurvives ∧
        (∀ x ∈ rows.filter fredSurvives, x.date ≤ r.date) ∧
        ∃ v, de_scaled_opt r.value = some (some v) ∧
          fred_parse rows = some (r.date, v)) ∧
    (∀ rows' : List RawRow, rows'.Perm rows → fred_parse rows' = fred_parse rows) ∧
    (∀ r ∈ rows, (trimChars r.value.toList = [] ∨ trimChars r.value.toList = ['.']) →
      nyfed_parse rows = none) := by
  obtain ⟨h1, h2⟩ := fred_parse_spec rows hok
  refine ⟨h1, h2, ?_, ?_⟩
  · intro rows' hperm
    have hok' : ∀ r ∈ rows', de_scaled_opt r.value ≠ none :=
      fun r hr => hok r (hperm.mem_iff.mp hr)
    obtain ⟨h1', h2'⟩ := fred_parse_spec rows' hok'
    have hfilperm : (rows'.filter fredSurvives).Perm (rows.filter fredSurvives) :=
      hperm.filter _
    by_cases hemp : rows.filter fredSurvives = []
    · rw [h1.mpr hemp, h1'.mpr (hemp ▸ hfilperm).eq_nil]
    · have hemp' : rows'.filter fredSurvives ≠ [] := by
        intro h
        exact hemp (h ▸ hfilperm).symm.eq_nil
      obtain ⟨r, hr, hmax, v, hov, heq⟩ := h2 hemp
      obtain ⟨r', hr', hmax', v', hov', heq'⟩ := h2' hemp'
      have hrmem : r ∈ rows := (List.mem_filter.mp hr).1
      have hr'mem : r' ∈ rows := hperm.mem_iff.mp (List.mem_filter.mp hr').1
      have hd1 : r'.date ≤ r.date := hmax r' (hfilperm.mem_iff.mp hr')
      have hd2 : r.date ≤ r'.date := hmax' r (hfilperm.mem_iff.mpr hr)
      have hreq : r = r' :=
        List.inj_on_of_nodup_map hnd hrmem hr'mem (le_antisymm hd2 hd1)
      subst hreq
      rw [hov] at hov'
      have hv : v = v' := by simpa using hov'
      rw [heq, heq', hv]
  · intro r hr hval
    have hnone : nyfedDeserialize r = none := by
      have hval' : trimChars r.value.data = [] ∨ trimChars r.value.data = ['.'] := hval
      simp only [nyfedDeserialize, de_scaled]
      rcases hval' with h | h <;> simp [h]
    unfold nyfed_parse parse_csv_for_latest
    rw [collectRows_eq_none_of_mem _ rows r hr hnone]

/-- Witness for C6 (amended): concrete two-row input, one surviving row. -/
theorem C6_published_average_parse_witness :
    ∃ r, r ∈ ([⟨0, "4.29"⟩, ⟨1, ""⟩] : List RawRow).filter fredSurvives ∧
      (∀ x ∈ ([⟨0, "4.29"⟩, ⟨1, ""⟩] : List RawRow).filter fredSurvives,
        x.date ≤ r.date) ∧
      ∃ v, de_scaled_opt r.value = some (some v) ∧
        fred_parse [⟨0, "4.29"⟩, ⟨1, ""⟩] = some (r.date, v) :=
  (C6_published_average_parse [⟨0, "4.29"⟩, ⟨1, ""⟩] (by decide) (by decide)).2.1
    (by decide)

/-- Bounds of the fueled binary logarithm: for `1 ≤ n ≤ fuel`,
`2 ^ log2fuel fuel n ≤ n < 2 ^ (log2fuel fuel n + 1)`. -/
theorem log2fuel_bounds :
    ∀ (fuel n : Nat), n ≤ fuel → 1 ≤ n →
      2 ^ log2fuel fuel n ≤ n ∧ n < 2 ^ (log2fuel fuel n + 1) := by
  intro fuel
  induction fuel with
  | zero => intro n h h1; omega
  | succ f ih =>
    intro n h h1
    rw [log2fuel]
    by_cases h2 : 2 ≤ n
    · rw [if_pos h2]
      obtain ⟨ha, hb⟩ := ih (n / 2) (by omega) (by omega)
      rw [pow_succ] at hb ⊢
      rw [pow_succ]
      omega
    · rw [if_neg h2]
      simp only [pow_zero, pow_one]
      omega

/-- Bounds of `natLog2`. -/
theorem natLog2_bounds (n : Nat) (h1 : 1 ≤ n) :
    2 ^ natLog2 n ≤ n ∧ n < 2 ^ (natLog2 n + 1) :=
  log2fuel_bounds n n le_rfl h1

/-- Half-even division rounds exactly when the divisor is 1. -/
theorem divRHE_one (a : Nat) : divRoundHalfEven a 1 = a := by
  simp only [divRoundHalfEven]
  split
  · omega
  · split
    · omega
    · split <;> omega

/-- The half-even rounded quotient is within half a divisor of the exact
quotient, stated on an explicit quotient/remainder decomposition. -/
theorem divRHE_close' (b q r : Nat) (hb : 0 < b) (hr : r < b) :
    2 * (divRoundHalfEven (b * q + r) b * b) ≤ 2 * (b * q + r) + b ∧
    2 * (b * q + r) ≤ 2 * (divRoundHalfEven (b * q + r) b * b) + b := by
  have hdiv : (b * q + r) / b = q := by
    rw [Nat.mul_add_div hb, Nat.div_eq_of_lt hr, Nat.add_zero]
  have hmod : (b * q + r) % b = r := by
    rw [Nat.mul_add_mod, Nat.mod_eq_of_lt hr]
  simp only [divRoundHalfEven, hdiv, hmod]
  split
  · constructor <;> (ring_nf; omega)
  · split
    · constructor <;> (ring_nf; omega)
    · split <;> constructor <;> (ring_nf; omega)

/-- The half-even rounded quotient is within half a divisor of the exact
quotient, in cleared-denominator form. -/
theorem divRHE_close (a b : Nat) (hb : 0 < b) :
    2 * (divRoundHalfEven a b * b) ≤ 2 * a + b ∧
    2 * a ≤ 2 * (divRoundHalfEven a b * b) + b := by
  have h := divRHE_close' b (a / b) (a % b) hb (Nat.mod_lt a hb)
  rwa [Nat.div_add_mod] at h

/-- The half-even rounded quotient is within `1 / 2` of the exact rational
quotient. -/
theorem divRHE_err (a b : Nat) (hb : 0 < b) :
    |((divRoundHalfEven a b : Nat) : ℚ) - (a : ℚ) / b| ≤ 1 / 2 := by
  obtain ⟨hc1, hc2⟩ := divRHE_close a b hb
  have hbq : (0 : ℚ) < b := by exact_mod_cast hb
  have hq1 : (2 : ℚ) * (divRoundHalfEven a b * b) ≤ 2 * a + b := by exact_mod_cast hc1
  have hq2 : (2 : ℚ) * a ≤ 2 * (divRoundHalfEven a b * b) + b := by exact_mod_cast hc2
  rw [abs_le]
  constructor
  · rw [neg_le_sub_iff_le_add, div_le_iff₀ hbq]
    ring_nf
    ring_nf at hq1
    linarith
  · rw [sub_le_comm, le_div_iff₀ hbq]
    ring_nf
    ring_nf at hq2
    linarith

/-- If the exact quotient is strictly within `1 / 2` of a natural `t`, the
half-even rounding is exactly `t`. -/
theorem divRHE_eq_of_near (a b t : Nat) (hb : 0 < b)
    (h : |(a : ℚ) / b - t| < 1 / 2) : divRoundHalfEven a b = t := by
  have herr := divRHE_err a b hb
  have habs : |((divRoundHalfEven a b : Nat) : ℚ) - t| < 1 := by
    calc |((divRoundHalfEven a b : Nat) : ℚ) - t|
        = |((divRoundHalfEven a b : Nat) : ℚ) - (a : ℚ) / b + ((a : ℚ) / b - t)| := by
          ring_nf
      _ ≤ |((divRoundHalfEven a b : Nat) : ℚ) - (a : ℚ) / b| + |(a : ℚ) / b - t| :=
          abs_add _ _
      _ < 1 / 2 + 1 / 2 := by
          apply add_lt_add_of_le_of_lt herr h
      _ = 1 := by norm_num
  rw [abs_lt] at habs
  have h1 : (-1 : ℚ) < ((divRoundHalfEven a b : Nat) : ℚ) - t := habs.1
  have h2 : ((divRoundHalfEven a b : Nat) : ℚ) - t < 1 := habs.2
  have hi1 : (-1 : ℤ) < (divRoundHalfEven a b : ℤ) - t := by exact_mod_cast h1
  have hi2 : ((divRoundHalfEven a b : ℤ)) - t < 1 := by exact_mod_cast h2
  omega

/-- Correctness of the cleared-denominator power comparison. -/
theorem le2pow_iff (e : Int) (a b : Nat) (hb : 0 < b) :
    le2pow e a b = true ↔ (2 : ℚ) ^ e ≤ (a : ℚ) / b := by
  have hbq : (0 : ℚ) < b := by exact_mod_cast hb
  unfold le2pow
  by_cases he : 0 ≤ e
  · obtain ⟨k, rfl⟩ : ∃ k : Nat, e = (k : Int) :=
      ⟨e.toNat, (Int.toNat_of_nonneg he).symm⟩
    rw [if_pos he, decide_eq_true_iff, Int.toNat_natCast, zpow_natCast,
      le_div_iff₀ hbq]
    constructor
    · intro h
      have h' : ((b * 2 ^ k : ℕ) : ℚ) ≤ (a : ℚ) := by exact_mod_cast h
      push_cast at h'
      linarith
    · intro h
      have h' : ((b : ℚ)) * 2 ^ k ≤ (a : ℚ) := by linarith
      exact_mod_cast h'
  · obtain ⟨k, rfl⟩ : ∃ k : Nat, e = -(k : Int) := ⟨(-e).toNat, by omega⟩
    rw [if_neg he, decide_eq_true_iff]
    simp only [neg_neg, Int.toNat_natCast]
    rw [zpow_neg, zpow_natCast]
    have h2k : (0 : ℚ) < 2 ^ k := by positivity
    rw [inv_eq_one_div, div_le_div_iff₀ h2k hbq, one_mul]
    constructor
    · intro h
      have h' : ((b : ℚ)) ≤ ((a * 2 ^ k : ℕ) : ℚ) := by exact_mod_cast h
      push_cast at h'
      linarith
    · intro h
      have h' : ((b : ℚ)) ≤ (a : ℚ) * 2 ^ k := by linarith
      exact_mod_cast h'

/-- The located binade exponent is a lower bound: `2 ^ natRatExp a b ≤ a / b`
for positive `a`, `b`. -/
theorem natRatExp_le (a b : Nat) (ha : 0 < a) (hb : 0 < b) :
    (2 : ℚ) ^ natRatExp a b ≤ (a : ℚ) / b := by
  have hbq : (0 : ℚ) < b := by exact_mod_cast hb
  simp only [natRatExp]
  split
  · rename_i hc
    exact (le2pow_iff _ a b hb).mp hc
  · obtain ⟨ha1, _⟩ := natLog2_bounds a ha
    obtain ⟨_, hb2⟩ := natLog2_bounds b hb
    have h1 : (2 : ℚ) ^ natLog2 a ≤ (a : ℚ) := by exact_mod_cast ha1
    have h2 : (b : ℚ) ≤ (2 : ℚ) ^ (natLog2 b + 1) := by
      have := le_of_lt hb2
      exact_mod_cast this
    have hexp : ((natLog2 a : Int) - (natLog2 b : Int) - 1) =
        (natLog2 a : Int) - ((natLog2 b : Int) + 1) := by ring
    have key : (2 : ℚ) ^ ((natLog2 a : Int) - (natLog2 b : Int) - 1) =
        (2 : ℚ) ^ natLog2 a / (2 : ℚ) ^ (natLog2 b + 1) := by
      rw [hexp, zpow_sub₀ (by norm_num : (2 : ℚ) ≠ 0)]
      congr 1
      · exact zpow_natCast 2 (natLog2 a)
      · rw [show ((natLog2 b : Int) + 1) = ((natLog2 b + 1 : Nat) : Int) by push_cast; ring]
        exact zpow_natCast 2 (natLog2 b + 1)
    rw [key]
    apply div_le_div (by positivity) h1 hbq h2

/-- The binade exponent of a quotient below `2 ^ c` is below `c`. -/
theorem natRatExp_lt (a b c : Nat) (ha : 0 < a) (hb : 0 < b)
    (h : (a : ℚ) / b < 2 ^ c) : natRatExp a b < (c : Int) := by
  have h1 := natRatExp_le a b ha hb
  have h2 : (2 : ℚ) ^ natRatExp a b < 2 ^ (c : Int) := by
    rw [zpow_natCast]
    exact lt_of_le_of_lt h1 h
  exact (zpow_lt_zpow_iff_right₀ (by norm_num : (1 : ℚ) < 2)).mp h2

/-- On an integer input the binade exponent is the binary logarithm. -/
theorem natRatExp_int (n : Nat) (h1 : 1 ≤ n) : natRatExp n 1 = natLog2 n := by
  have hb := (natLog2_bounds n h1).1
  have h0 : natLog2 1 = 0 := rfl
  simp only [natRatExp, h0, Nat.cast_zero, sub_zero]
  rw [if_pos]
  unfold le2pow
  rw [if_pos (by positivity), decide_eq_true_iff, Int.toNat_natCast, one_mul]
  exact hb

/-- Core of the formatting exactness: if the double being formatted is the
correctly rounded value of `A / B` where `A / B = n / 10 ^ 8` exactly and
`n < 2 ^ 26 * 10 ^ 8`, then rounding that double at 8 fractional digits
recovers `n` exactly (the double is within `2 ^ (e - 53) < 10 ^ -8 / 2` of
the exact decimal value). -/
theorem fmt_core (A B n : Nat) (hA : 1 ≤ A) (hB : 0 < B)
    (hABn : A * 100000000 = n * B) (hn : n < 6710886400000000) :
    (if 0 ≤ (f64round A B).2
     then (f64round A B).1 * 2 ^ (f64round A B).2.toNat * 100000000
     else divRoundHalfEven ((f64round A B).1 * 100000000)
       (2 ^ (-(f64round A B).2).toNat)) = n := by
  have hbq : (0 : ℚ) < B := by exact_mod_cast hB
  have hx : (A : ℚ) / B = (n : ℚ) / 100000000 := by
    rw [div_eq_div_iff (ne_of_gt hbq) (by norm_num : (100000000 : ℚ) ≠ 0)]
    exact_mod_cast hABn
  have hxlt : (A : ℚ) / B < 2 ^ 26 := by
    rw [hx, div_lt_iff (by norm_num : (0 : ℚ) < 100000000)]
    calc (n : ℚ) < 6710886400000000 := by exact_mod_cast hn
      _ = 2 ^ 26 * 100000000 := by norm_num
  have he2 : natRatExp A B < 26 := natRatExp_lt A B 26 (by omega) hB hxlt
  set e2 := natRatExp A B with he2def
  set s2 := ((52 : Int) - e2).toNat with hs2def
  have hs2 : (52 : Int) - e2 = (s2 : Int) := by omega
  have hs2ge : 27 ≤ s2 := by omega
  have hd2 : f64round A B = (divRoundHalfEven (A * 2 ^ s2) B, e2 - 52) := by
    simp only [f64round, ← he2def]
    rw [if_pos (by omega : (0 : Int) ≤ 52 - e2), hs2, Int.toNat_natCast]
  rw [hd2]
  dsimp only
  rw [if_neg (by omega : ¬ (0 : Int) ≤ e2 - 52)]
  have htn : (-(e2 - 52)).toNat = s2 := by omega
  rw [htn]
  set m2 := divRoundHalfEven (A * 2 ^ s2) B with hm2def
  refine divRHE_eq_of_near _ _ _ (by positivity) ?_
  have herr := divRHE_err (A * 2 ^ s2) B hB
  have hform : ((A * 2 ^ s2 : ℕ) : ℚ) / B = ((A : ℚ) / B) * 2 ^ s2 := by
    push_cast; ring
  rw [hform, hx, ← hm2def] at herr
  have h2pos : (0 : ℚ) < 2 ^ s2 := by positivity
  have hkey : ((m2 * 100000000 : ℕ) : ℚ) / ((2 ^ s2 : ℕ) : ℚ) - n =
      ((m2 : ℚ) - (n : ℚ) / 100000000 * 2 ^ s2) * (100000000 / 2 ^ s2) := by
    push_cast
    field_simp
    ring
  rw [hkey, abs_mul, abs_of_pos (by positivity : (0 : ℚ) < 100000000 / 2 ^ s2)]
  have hlt1 : (100000000 : ℚ) / 2 ^ s2 < 1 := by
    rw [div_lt_one h2pos]
    calc (100000000 : ℚ) < 2 ^ 27 := by norm_num
      _ ≤ 2 ^ s2 := pow_le_pow_right (by norm_num) hs2ge
  calc |(m2 : ℚ) - (n : ℚ) / 100000000 * 2 ^ s2| * (100000000 / 2 ^ s2)
      ≤ (1 / 2) * (100000000 / 2 ^ s2) :=
        mul_le_mul_of_nonneg_right herr (by positivity)
    _ < (1 / 2) * 1 := by
        exact mul_lt_mul_of_pos_left hlt1 (by norm_num)
    _ = 1 / 2 := by norm_num

/-- Formatting exactness: for every scaled rate below `2 ^ 26 * 10 ^ 8`
(≈ 6.7 × 10 ^ 15), `fmt_scaled_rate` — despite passing through two `f64`
roundings — produces exactly the 8-fractional-digit decimal rendering of
`scaled_rate / 10 ^ 8`. -/
theorem fmt_scaled_rate_exact (n : Nat) (hn : n < 2 ^ 26 * 10 ^ 8) :
    fmt_scaled_rate n = renderFixed8 n := by
  have hlit : (2 : ℕ) ^ 26 * 10 ^ 8 = 6710886400000000 := by norm_num
  have hn' : n < 6710886400000000 := by omega
  by_cases h0 : n = 0
  · subst h0; decide
  have h1 : 1 ≤ n := by omega
  have hlog := natLog2_bounds n h1
  have hlog52 : natLog2 n ≤ 52 := by
    by_contra hgt
    push_neg at hgt
    have hpow : (2 : ℕ) ^ 53 ≤ 2 ^ natLog2 n :=
      Nat.pow_le_pow_right (by norm_num) (by omega)
    have h2_53 : (2 : ℕ) ^ 53 = 9007199254740992 := by norm_num
    omega
  have hd1 : f64round n 1 = (n * 2 ^ (52 - natLog2 n), (natLog2 n : Int) - 52) := by
    simp only [f64round, natRatExp_int n h1]
    rw [if_pos (by omega : (0 : Int) ≤ 52 - (natLog2 n : Int))]
    have ht : ((52 : Int) - (natLog2 n : Int)).toNat = 52 - natLog2 n := by omega
    rw [ht, divRHE_one]
  simp only [fmt_scaled_rate]
  rw [hd1]
  dsimp only
  by_cases hc : natLog2 n = 52
  · rw [if_pos (by omega : (0 : Int) ≤ (natLog2 n : Int) - 52)]
    dsimp only
    have hA : n * 2 ^ (52 - natLog2 n) * 2 ^ ((natLog2 n : Int) - 52).toNat = n := by
      rw [hc]
      norm_num
    rw [hA]
    rw [fmt_core n 100000000 n h1 (by norm_num) (by ring) hn']
  · rw [if_neg (by omega : ¬ (0 : Int) ≤ (natLog2 n : Int) - 52)]
    dsimp only
    have ht2 : (-((natLog2 n : Int) - 52)).toNat = 52 - natLog2 n := by omega
    rw [ht2]
    rw [fmt_core (n * 2 ^ (52 - natLog2 n)) (100000000 * 2 ^ (52 - natLog2 n)) n
      (Nat.one_le_iff_ne_zero.mpr (by positivity)) (by positivity) (by ring) hn']

/-- The scale a successful unsigned decimal parse reports is the number of
characters after the decimal point of the `_`-stripped input. -/
theorem parseUnsignedDec_scale (l : List Char) (m sc : Nat)
    (h : parseUnsignedDec l = some (m, sc)) :
    sc = ((l.filter (fun c => c ≠ '_')).dropWhile (fun c => c ≠ '.')).tail.length := by
  simp only [parseUnsignedDec] at h
  split at h
  · split at h
    · simp only [Option.some.injEq, Prod.mk.injEq] at h
      rename_i heq _

      rw [heq]
      simp [h.2]
    · exact absurd h (by simp)
  · split at h
    · simp only [Option.some.injEq, Prod.mk.injEq] at h
      rename_i heq _
      rw [heq]
      simp [h.2]
    · exact absurd h (by simp)

/-- The scale a successful decimal parse reports is the number of characters
after the decimal point of the `_`-stripped input (the sign character passes
through the filter and the drop). -/
theorem parseDecimalChars_scale (l : List Char) (ng : Bool) (m sc : Nat)
    (h : parseDecimalChars l = some (ng, m, sc)) :
    sc = ((l.filter (fun c => c ≠ '_')).dropWhile (fun c => c ≠ '.')).tail.length := by
  cases l with
  | nil => exact absurd h (by simp [parseDecimalChars])
  | cons c r =>
    simp only [parseDecimalChars] at h
    split at h
    · rename_i hplus
      subst hplus
      obtain ⟨p, hp2, heq⟩ := Option.map_eq_some'.mp h
      obtain ⟨m', sc'⟩ := p
      simp only [Prod.mk.injEq] at heq
      obtain ⟨-, -, h3⟩ := heq
      rw [← h3, parseUnsignedDec_scale r m' sc' hp2]
      simp [List.filter_cons, List.dropWhile_cons]
    · split at h
      · rename_i hminus
        subst hminus
        obtain ⟨p, hp2, heq⟩ := Option.map_eq_some'.mp h
        obtain ⟨m', sc'⟩ := p
        simp only [Prod.mk.injEq] at heq
        obtain ⟨-, -, h3⟩ := heq
        rw [← h3, parseUnsignedDec_scale r m' sc' hp2]
        simp [List.filter_cons, List.dropWhile_cons]
      · obtain ⟨p, hp2, heq⟩ := Option.map_eq_some'.mp h
        obtain ⟨m', sc'⟩ := p
        simp only [Prod.mk.injEq] at heq
        obtain ⟨-, -, h3⟩ := heq
        rw [← h3]
        exact parseUnsignedDec_scale (c :: r) m' sc' hp2

/-- C10 (counterexample): the percent string `"9007199254.740993"` has 6
fractional digits and parses to the scaled value
`9_007_199_254_740_993 = 2 ^ 53 + 1`, but `fmt_scaled_rate` renders
`"90071992.54740992"` — the `u64` to `f64` conversion already rounds the
value to `2 ^ 53` — while the normalized 8-fractional-digit rendering of the
parsed value divided by 100 is `"90071992.54740993"`. -/
theorem C10_counterexample :
    percent_to_floored_u64 "9007199254.740993" = some 9007199254740993 ∧
    fracDigitCount "9007199254.740993" = 6 ∧
    fmt_scaled_rate 9007199254740993 = "90071992.54740992" ∧
    renderFixed8 9007199254740993 = "90071992.54740993" ∧
    fmt_scaled_rate 9007199254740993 ≠ renderFixed8 9007199254740993 :=
  ⟨by decide, by decide, by decide, by decide, by decide⟩

/-- C10 (amended): for every valid non-negative decimal percent string `s`
with at most 6 fractional digits that `percent_to_floored_u64` accepts with
scaled value `n` below `2 ^ 26 * 10 ^ 8`, the parse is exact —
`n = value(s) * 10 ^ 6`, so `n / 10 ^ 8` is exactly `value(s) / 100` — and
`fmt_scaled_rate n` reproduces the normalized decimal form of `s` divided by
100 rendered with exactly 8 fractional digits, namely `renderFixed8 n`
(e.g. parsing `"4.5"` then formatting yields `"0.04500000"`). -/
theorem C10_format_roundtrip (s : String) (n : Nat)
    (hp : percent_to_floored_u64 s = some n)
    (hfd : fracDigitCount s ≤ 6)
    (hb : n < 2 ^ 26 * 10 ^ 8) :
    (n : ℚ) = decValue s * 10 ^ 6 ∧ fmt_scaled_rate n = renderFixed8 n := by
  refine ⟨?_, fmt_scaled_rate_exact n hb⟩
  simp only [percent_to_floored_u64] at hp
  split at hp
  · exact absurd hp (by simp)
  · split at hp
    · exact absurd hp (by simp)
    · rename_i neg m sc hpd
      split at hp
      · exact absurd hp (by simp)
      · split at hp
        · simp only [Option.some.injEq] at hp
          have hsc : sc ≤ 6 := by
            have hscale := parseDecimalChars_scale (trimChars s.toList) neg m sc hpd
            simp only [fracDigitCount] at hfd
            rw [← hscale] at hfd
            exact hfd
          have hexp : (10 : ℕ) ^ 6 = 10 ^ sc * 10 ^ (6 - sc) := by
            rw [← pow_add]
            congr 1
            omega
          have hneq : n = m * 10 ^ (6 - sc) := by
            rw [← hp]
            have hm : m * 1000000 = m * 10 ^ (6 - sc) * 10 ^ sc := by
              rw [show (1000000 : ℕ) = 10 ^ 6 by norm_num, hexp]
              ring
            rw [hm, Nat.mul_div_cancel _ (by positivity)]
          have hdv : decValue s = (m : ℚ) / 10 ^ sc := by
            simp only [decValue, hpd]
          rw [hdv, hneq]
          push_cast
          rw [div_mul_eq_mul_div, eq_div_iff (by positivity : ((10 : ℚ) ^ sc) ≠ 0)]
          rw [mul_assoc, ← pow_add]
          congr 2
          omega
        · exact absurd hp (by simp)

/-- Witness for C10 (amended): Scenario E, the string `"4.5"` parses to
`4_500_000` and round-trips through the formatter. -/
theorem C10_format_roundtrip_witness :
    ((4500000 : Nat) : ℚ) = decValue "4.5" * 10 ^ 6 ∧
    fmt_scaled_rate 4500000 = renderFixed8 4500000 :=
  C10_format_roundtrip "4.5" 4500000 (by decide) (by decide) (by decide)

end AqaPublisher

namespace AqaPublisher

/-!
Model validation: the embedded functions reproduce the unit tests of the
Rust sources (`src/utils.rs`, `src/sources/mod.rs`) and the known concrete
outputs of `format!("{:.8}", _)`, giving evidence that the embedding is
faithful to the code it models.
-/

/-- Validation of `adjust_basis` against the `basis_scaling` unit test. -/
theorem adjust_basis_unit_tests :
    adjust_basis 0 = 0 ∧ adjust_basis 100000000 = 101458333 ∧
    adjust_basis 5000000 = 5072916 := by decide

/-- Validation of `fmt_scaled_rate` against the `decimal_scaling` unit
test. -/
theorem fmt_scaled_rate_unit_tests :
    fmt_scaled_rate 0 = "0.00000000" ∧ fmt_scaled_rate 1000000 = "0.01000000" ∧
    fmt_scaled_rate 4500000 = "0.04500000" ∧
    fmt_scaled_rate 100000000 = "1.00000000" ∧
    fmt_scaled_rate 12345678 = "0.12345678" := by decide

/-- Validation of `percent_to_floored_u64` against the
`percent_to_floored_tests` unit tests. -/
theorem percent_to_floored_u64_unit_tests :
    percent_to_floored_u64 "0" = some 0 ∧
    percent_to_floored_u64 "1" = some 1000000 ∧
    percent_to_floored_u64 "100" = some 100000000 ∧
    percent_to_floored_u64 "123456" = some 123456000000 ∧
    percent_to_floored_u64 "4.2932" = some 4293200 ∧
    percent_to_floored_u64 "4.293199999999999683" = some 4293199 ∧
    percent_to_floored_u64 "1.000000" = some 1000000 ∧
    percent_to_floored_u64 "1.0000000000001" = some 1000000 ∧
    percent_to_floored_u64 "2.123456" = some 2123456 ∧
    percent_to_floored_u64 "2.1234560" = some 2123456 ∧
    percent_to_floored_u64 "2.123456789" = some 2123456 ∧
    percent_to_floored_u64 "0.0000009" = some 0 ∧
    percent_to_floored_u64 "   4.5 " = some 4500000 ∧
    percent_to_floored_u64 "" = none ∧
    percent_to_floored_u64 "." = none ∧
    percent_to_floored_u64 "..1" = none ∧
    percent_to_floored_u64 "abc" = none ∧
    percent_to_floored_u64 "-0.01" = none ∧
    percent_to_floored_u64 "4.2e0" = none ∧
    percent_to_floored_u64 "1e2" = none ∧
    percent_to_floored_u64 "-1e2" = none := by decide

/-- Validation of the median aggregator on the spec scenarios: Scenario A
(three agreeing sources select the middle), Scenario B (two sources
average). -/
theorem compute_validated_median_scenarios :
    compute_validated_median 100
      [⟨"F", 100, 4293200⟩, ⟨"N", 100, 4303200⟩, ⟨"O", 100, 4283200⟩] =
      .ok (100, 4293200) ∧
    compute_validated_median 100 [⟨"A", 100, 4293200⟩, ⟨"B", 100, 4333200⟩] =
      .ok (100, 4313200) := ⟨rfl, rfl⟩

end AqaPublisher
